import Mathlib

/-!
# Rebinning and TTF / FTF derivation of `get_reliability.cxx`

A shallow embedding of the ROOT script `0_archive/src/get_reliability.cxx`.

* `Double_t` quantities that come from the input trees (timestamps, the `HEH`
  fluence counter, sums of `Int_t` bit counters) are finite and are modelled by
  exact rationals: rounding is not modelled.
* The two quotients of the TTF computation can be non-finite, and the script
  reads `vl2` before it is ever assigned, so those values live in `Dbl`, which
  adds `+inf`, `-inf` and `NaN` to the rationals with the IEEE-754 rules for
  `+`, `/` and `>` (a zero divisor is always `+0` here, see `Dbl.div`).
* `TH1D` keeps what the script reads or writes of a ROOT histogram: the axis,
  the cell contents (cell `0` underflow, cell `nbins + 1` overflow), the
  squared cell errors and the entry count.  ROOT is a library the script
  calls; its methods follow ROOT 6.18, the version named in the bin dumps
  `cpld_TTF_2.C` and `cpld_TTF_3.C`.

The file has the embedding first (`Dbl`, `TH1D`, the two loops, the FTF stage,
the script), then the definitions the proofs and the statements need, then the
theorems.
-/

namespace GetReliability

/-! ## Doubles with infinities and NaN -/

/-- A `Double_t` value: a finite number, `+inf`, `-inf` or `NaN`. -/
inductive Dbl where
  | fin (q : ℚ)
  | pinf
  | ninf
  | nan
  deriving DecidableEq

namespace Dbl

/-- IEEE addition: `inf + (-inf) = NaN`, `NaN` is absorbing. -/
def add : Dbl → Dbl → Dbl
  | fin a, fin b => fin (a + b)
  | nan, _ => nan
  | _, nan => nan
  | pinf, ninf => nan
  | ninf, pinf => nan
  | pinf, _ => pinf
  | _, pinf => pinf
  | ninf, _ => ninf
  | _, ninf => ninf

/-- IEEE division.  `x / 0` is `+inf` or `-inf` for `x ≠ 0` and `0 / 0` is
`NaN`.  Every zero divisor the script produces is `+0` (it is a difference of
equal numbers or a sum with `+0`), so a zero divisor keeps the sign of the
dividend. -/
def div : Dbl → Dbl → Dbl
  | fin a, fin b =>
      if b = 0 then (if 0 < a then pinf else if a < 0 then ninf else nan)
      else fin (a / b)
  | nan, _ => nan
  | _, nan => nan
  | fin _, pinf => fin 0
  | fin _, ninf => fin 0
  | pinf, fin b => if 0 ≤ b then pinf else ninf
  | ninf, fin b => if 0 ≤ b then ninf else pinf
  | pinf, pinf => nan
  | pinf, ninf => nan
  | ninf, pinf => nan
  | ninf, ninf => nan

/-- The comparison `x > c` against a finite constant: false for `NaN`. -/
def gt : Dbl → ℚ → Bool
  | fin a, c => decide (c < a)
  | pinf, _ => true
  | ninf, _ => false
  | nan, _ => false

end Dbl

/-! ## The part of ROOT's `TH1D` the script uses -/

/-- Squared error `fSumw2` of one cell.  `SetBinError(bin, sqrt(a) + sqrt(b))`
stores `(sqrt a + sqrt b)^2`, kept symbolically as `base = some (a, b)`; every
later `Fill` with weight `w` adds `w * w`, accumulated in `added`. -/
structure CellErr where
  base : Option (ℚ × ℚ)
  added : ℚ
  deriving DecidableEq

/-- A one-dimensional histogram with `nbins` equal bins over `[xmin, xmax)`.
Cells are numbered `0 .. nbins + 1`. -/
structure TH1D where
  nbins : Nat
  xmin : ℚ
  xmax : ℚ
  content : Nat → ℚ
  sumw2 : Nat → CellErr
  entries : Nat

namespace TH1D

/-- Constructor `new TH1D(name, title, nbins, xmin, xmax)`: an empty histogram. -/
def new (nbins : Nat) (xmin xmax : ℚ) : TH1D :=
  { nbins := nbins, xmin := xmin, xmax := xmax,
    content := fun _ => 0, sumw2 := fun _ => ⟨none, 0⟩, entries := 0 }

/-- Method `GetNbinsX()`. -/
def GetNbinsX (h : TH1D) : Nat := h.nbins

/-- Method `GetBinLowEdge(bin)`: `xmin + (bin - 1) * binwidth`. -/
def GetBinLowEdge (h : TH1D) (bin : Nat) : ℚ :=
  h.xmin + ((bin : ℚ) - 1) * ((h.xmax - h.xmin) / (h.nbins : ℚ))

/-- Method `TAxis::FindBin(x)`: `0` below the axis, `nbins + 1` at or above `xmax`
(the test is `!(x < xmax)`, which also catches `NaN`), else
`1 + int(nbins * (x - xmin) / (xmax - xmin))`. -/
def FindBin (h : TH1D) : Dbl → Nat
  | .fin x =>
      if x < h.xmin then 0
      else if ¬ (x < h.xmax) then h.nbins + 1
      else 1 + (⌊(h.nbins : ℚ) * (x - h.xmin) / (h.xmax - h.xmin)⌋).toNat
  | .pinf => h.nbins + 1
  | .ninf => 0
  | .nan => h.nbins + 1

/-- Method `Fill(x, w)`: one more entry, `w` added to the cell of `x` and `w * w` to
its squared error.  `Fill(x)` is `Fill(x, 1)`. -/
def Fill (h : TH1D) (x : Dbl) (w : ℚ) : TH1D :=
  let bin := h.FindBin x
  { h with
    entries := h.entries + 1
    content := fun j => if j = bin then h.content j + w else h.content j
    sumw2 := fun j =>
      if j = bin then ⟨(h.sumw2 j).base, (h.sumw2 j).added + w * w⟩ else h.sumw2 j }

/-- Method `SetBinError(bin, sqrt(a) + sqrt(b))`: ignored when `bin` is not a cell. -/
def SetBinError (h : TH1D) (bin : Nat) (a b : ℚ) : TH1D :=
  if h.nbins + 2 ≤ bin then h
  else { h with sumw2 := fun j => if j = bin then ⟨some (a, b), 0⟩ else h.sumw2 j }

/-- Method `GetBinContent(bin)`: an index past the overflow cell reads the overflow
cell. -/
def GetBinContent (h : TH1D) (bin : Nat) : ℚ :=
  h.content (min bin (h.nbins + 1))

/-- Method `h.Divide(h1)`, contents only: cell by cell `c0 / c1`, and `0` where
`c1 = 0`.  The errors ROOT recomputes here are never read by the script and are
left as they are. -/
def Divide (h h1 : TH1D) : TH1D :=
  { h with
    content := fun j => if h1.content j ≠ 0 then h.content j / h1.content j else 0 }

end TH1D

/-! ## Input records -/

/-- One entry of the beam tree `tr`: the branches `t` and `HEH` (the branches
`TID` and `N1MeV` are bound but never read). -/
structure BeamSample where
  t : ℚ
  HEH : ℚ
  deriving DecidableEq

/-- One entry of the CPLD tree `tr`: the branch `t` and the `Int_t` arrays
`bit` and `bitP`. -/
structure CpldSample where
  t : ℚ
  bit : List ℤ
  bitP : List ℤ
  deriving DecidableEq

/-- The summing loop `v = 0; for (int n = 0; n < nbits; n++) v += arr[n];` -/
def sumBits (nbits : Nat) (arr : List ℤ) : ℚ :=
  (List.range nbits).foldl (fun acc n => acc + ((arr.getD n 0 : ℤ) : ℚ)) 0

/-! ## Fluence rebinning (lines 41-56 and 114-129) -/

/-- The variables a rebinning loop reads and writes. -/
structure ScanState where
  h : TH1D
  nbin : Nat
  tl : ℚ
  th : ℚ
  vl : ℚ

/-- Body of the fluence loop for one tree entry. -/
def fluenceStep (st : ScanState) (s : BeamSample) : ScanState :=
  if s.t > st.th then
    let vh := s.HEH
    let h1 := st.h.Fill (.fin ((st.tl + st.th) / 2)) (vh - st.vl)
    let h2 := h1.SetBinError st.nbin vh st.vl
    let nbin := st.nbin + 1
    { h := h2
      nbin := nbin
      tl := st.th
      th := if nbin + 1 ≤ h2.GetNbinsX then h2.GetBinLowEdge (nbin + 1) else st.th
      vl := vh }
  else st

/-- The fluence loop: `tl = tmin; th = h->GetBinLowEdge(nbin+1); GetEntry(0);
vl = HEH;` and then the loop over all entries.  `nbin` is whatever the script
holds when the loop starts.  On an empty tree the loop body never runs and the
value of `vl` is immaterial. -/
def fluenceScan (h : TH1D) (nbin : Nat) (tmin : ℚ) (tr : List BeamSample) : ScanState :=
  tr.foldl fluenceStep
    { h := h, nbin := nbin, tl := tmin, th := h.GetBinLowEdge (nbin + 1),
      vl := (tr.head?.map BeamSample.HEH).getD 0 }

/-! ## Error rebinning with the TTF fill (lines 67-90 and 140-163) -/

/-- The variables the error loop reads and writes: those of the fluence loop,
the watermark `vl2` and the TTF histogram. -/
structure ErrState where
  h : TH1D
  hTTF : TH1D
  nbin : Nat
  tl : ℚ
  th : ℚ
  vl : ℚ
  vl2 : Dbl

/-- Body of the error loop for one tree entry. -/
def errorStep (nbits : Nat) (st : ErrState) (s : CpldSample) : ErrState :=
  if s.t > st.th then
    let vh := sumBits nbits s.bit
    let vh2 := sumBits nbits s.bitP
    let h1 := st.h.Fill (.fin ((st.tl + st.th) / 2)) (vh - st.vl)
    let h2 := h1.SetBinError st.nbin vh st.vl
    let hTTF :=
      if (Dbl.div (.fin (st.th - st.tl)) (.fin (vh - st.vl))).gt 10 then
        st.hTTF.Fill
          (Dbl.div (.fin (st.th - st.tl)) (Dbl.add (.fin (vh - st.vl - vh2)) st.vl2)) 1
      else st.hTTF
    let nbin := st.nbin + 1
    { h := h2
      hTTF := hTTF
      nbin := nbin
      tl := st.th
      th := if nbin + 1 ≤ h2.GetNbinsX then h2.GetBinLowEdge (nbin + 1) else st.th
      vl := vh
      vl2 := .fin vh2 }
  else st

/-- The error loop: `nbin = 1; tl = tmin; th = h->GetBinLowEdge(nbin+1);
GetEntry(0); vl = 0;` then both arrays of entry 0 are summed into `vl`, then
the loop over all entries.  `vl2` is not assigned before the loop: it enters
with the value it happens to hold. -/
def errorScan (nbits : Nat) (h hTTF : TH1D) (tmin : ℚ) (vl2 : Dbl)
    (tr : List CpldSample) : ErrState :=
  tr.foldl (errorStep nbits)
    { h := h, hTTF := hTTF, nbin := 1, tl := tmin, th := h.GetBinLowEdge (1 + 1),
      vl := (tr.head?.map (fun s => sumBits nbits s.bit + sumBits nbits s.bitP)).getD 0,
      vl2 := vl2 }

/-! ## FTF derivation (lines 94-98 and 167-171) -/

/-- The loop `for k < hB->GetNbinsX(): vl = hB->GetBinContent(k+1);
if (vl > 0) hFTF->Fill(vl);` over an already divided histogram. -/
def ftfLoop (hB hFTF : TH1D) : TH1D :=
  (List.range hB.GetNbinsX).foldl
    (fun acc k =>
      let vl := hB.GetBinContent (k + 1)
      if vl > 0 then acc.Fill (.fin vl) 1 else acc)
    hFTF

/-- The call `hB->Divide(h)` followed by the FTF loop. -/
def ftfStage (hB h hFTF : TH1D) : TH1D :=
  ftfLoop (hB.Divide h) hFTF

/-! ## The script -/

/-- The eight histograms the script leaves behind.  `hr2B` and `hr3B` are the
fluence histograms after `Divide`; `hr2Bfluence` and `hr3Bfluence` are the same
histograms as the fluence loops left them, before `Divide`. -/
structure Outputs where
  hr2Bfluence : TH1D
  hr2B : TH1D
  hr2 : TH1D
  hr2TTF : TH1D
  hr2FTF : TH1D
  hr3Bfluence : TH1D
  hr3B : TH1D
  hr3 : TH1D
  hr3TTF : TH1D
  hr3FTF : TH1D

/-- Window of run 2. -/
def tr2min : ℚ := 1663100000
/-- Window of run 2. -/
def tr2max : ℚ := 1663800000
/-- Window of run 3. -/
def tr3min : ℚ := 1667940000
/-- Window of run 3. -/
def tr3max : ℚ := 1668640000
/-- Number of time bins. -/
def Nbin : Nat := 1000
/-- Range of the TTF histograms. -/
def ttfmin : ℚ := 0
/-- Range of the TTF histograms. -/
def ttfmax : ℚ := 1000
/-- Range of the FTF histograms. -/
def ftfmin : ℚ := 0
/-- Range of the FTF histograms (`10e6`). -/
def ftfmax : ℚ := 10000000
/-- Width of the bit arrays of run 2. -/
def nbitsr2 : Nat := 32
/-- Width of the bit arrays of run 3. -/
def nbitsr3 : Nat := 16

/-- The whole script as a function of the four trees and of the value `vl2`
holds when it is first read (it is declared without an initialiser).  The
variables that live across the two runs are `nbin` and `vl2`: the run 3 fluence
loop starts from the `nbin` the run 2 error loop ended with, and the run 3
error loop starts from the `vl2` the run 2 error loop ended with. -/
def get_reliability (vl2 : Dbl) (beam2 : List BeamSample) (cpld2 : List CpldSample)
    (beam3 : List BeamSample) (cpld3 : List CpldSample) : Outputs :=
  let f2 := fluenceScan (TH1D.new Nbin tr2min tr2max) 1 tr2min beam2
  let e2 := errorScan nbitsr2 (TH1D.new Nbin tr2min tr2max)
    (TH1D.new (Nbin / 10) ttfmin ttfmax) tr2min vl2 cpld2
  let hr2B := f2.h.Divide e2.h
  let hr2FTF := ftfLoop hr2B (TH1D.new (Nbin / 10) ftfmin ftfmax)
  let f3 := fluenceScan (TH1D.new Nbin tr3min tr3max) e2.nbin tr3min beam3
  let e3 := errorScan nbitsr3 (TH1D.new Nbin tr3min tr3max)
    (TH1D.new (Nbin / 10) ttfmin ttfmax) tr3min e2.vl2 cpld3
  let hr3B := f3.h.Divide e3.h
  let hr3FTF := ftfLoop hr3B (TH1D.new (Nbin / 10) ftfmin ftfmax)
  { hr2Bfluence := f2.h, hr2B := hr2B, hr2 := e2.h, hr2TTF := e2.hTTF, hr2FTF := hr2FTF,
    hr3Bfluence := f3.h, hr3B := hr3B, hr3 := e3.h, hr3TTF := e3.hTTF, hr3FTF := hr3FTF }

/-! ## The rebinning shared by the fluence and the error loop

Both loop bodies treat the histogram, `nbin`, `tl`, `th` and `vl` alike; they
differ in where the value of an entry comes from.  `rebinStep` is that common
body over `(timestamp, value)` pairs. -/

/-- The statements both loop bodies share, for an entry with timestamp `p.1`
and value `p.2`. -/
def rebinStep (st : ScanState) (p : ℚ × ℚ) : ScanState :=
  if p.1 > st.th then
    let h2 := (st.h.Fill (.fin ((st.tl + st.th) / 2)) (p.2 - st.vl)).SetBinError st.nbin p.2 st.vl
    { h := h2
      nbin := st.nbin + 1
      tl := st.th
      th := if st.nbin + 1 + 1 ≤ h2.GetNbinsX then h2.GetBinLowEdge (st.nbin + 1 + 1) else st.th
      vl := p.2 }
  else st

/-- The fluence loop reads the pair `(t, HEH)`. -/
def beamPair (s : BeamSample) : ℚ × ℚ := (s.t, s.HEH)

/-- Inside its loop the error loop reads the pair `(t, sum of bit)`. -/
def cpldPair (nbits : Nat) (s : CpldSample) : ℚ × ℚ := (s.t, sumBits nbits s.bit)

/-- The rebinning variables of an error-loop state. -/
def ErrState.toScan (st : ErrState) : ScanState :=
  { h := st.h, nbin := st.nbin, tl := st.tl, th := st.th, vl := st.vl }

/-- Low edge of bin `i` of the uniform grid of `N` bins over `[a, b]`. -/
def edgeOf (N : Nat) (a b : ℚ) (i : Nat) : ℚ :=
  a + ((i : ℚ) - 1) * ((b - a) / (N : ℚ))

/-- Where the scan stands on the grid of `N` bins over `[a, b]`: below the last
bin it is building bin `nbin` between that bin's edges; from the last bin on
both watermarks sit on the low edge of bin `N`. -/
def GridInv (N : Nat) (a b : ℚ) (st : ScanState) : Prop :=
  st.h.nbins = N ∧ st.h.xmin = a ∧ st.h.xmax = b ∧ a < b ∧ 1 ≤ st.nbin ∧
  ((st.nbin < N ∧ st.tl = edgeOf N a b st.nbin ∧ st.th = edgeOf N a b (st.nbin + 1)) ∨
   (N ≤ st.nbin ∧ 1 ≤ N ∧ st.tl = edgeOf N a b N ∧ st.th = edgeOf N a b N))

/-! ## Vocabulary of the statements -/

/-- The first pair of the stream `l` whose timestamp is strictly greater than
`e`, with the pairs that come after it. -/
def seekAbove (e : ℚ) : List (ℚ × ℚ) → Option ((ℚ × ℚ) × List (ℚ × ℚ))
  | [] => none
  | p :: l => if p.1 > e then some (p, l) else seekAbove e l

/-- The value at the `k`-th bin boundary counted from a scan that is building
bin `n` with low value `v0` and still has the stream `l` to read, with the
stream left after that boundary.  Boundary `0` is `(v0, l)`: nothing is read
yet.  Boundary `k + 1` is the first entry of the stream left after boundary `k`
whose timestamp is strictly greater than the high edge `edge (n + k + 1)` of
bin `n + k`. -/
def boundaryFrom (edge : Nat → ℚ) (n : Nat) (v0 : ℚ) (l : List (ℚ × ℚ)) :
    Nat → Option (ℚ × List (ℚ × ℚ))
  | 0 => some (v0, l)
  | k + 1 =>
    match boundaryFrom edge n v0 l k with
    | none => none
    | some (_, rest) =>
      match seekAbove (edge (n + k + 1)) rest with
      | none => none
      | some (c, r) => some (c.2, r)

/-- The same for the error scan: boundary `0` carries the initial `vl`, the sum
of both arrays of the first entry; every later boundary carries the sum of the
`bit` array of the entry that closed the bin. -/
def errorBoundary (nbits : Nat) (h : TH1D) (tr : List CpldSample) (i : Nat) : Option ℚ :=
  (boundaryFrom h.GetBinLowEdge 1
    ((tr.head?.map (fun s => sumBits nbits s.bit + sumBits nbits s.bitP)).getD 0)
    (tr.map (cpldPair nbits)) i).map Prod.fst

/-- The combined sum of both arrays of an entry. -/
def combinedSum (nbits : Nat) (s : CpldSample) : ℚ :=
  sumBits nbits s.bit + sumBits nbits s.bitP

/-- The bin-wise quotient `Fluence[i] / Error[i]`, with the convention of
`Divide` that a zero divisor gives `0`. -/
def binQuotient (hB hE : TH1D) (i : Nat) : ℚ :=
  if hE.content i = 0 then 0 else hB.content i / hE.content i

/-- The strictly positive quotients of bins `1 .. N`, in bin order. -/
def ftfObservations (hB hE : TH1D) : List ℚ :=
  ((List.range hB.nbins).map (fun k => binQuotient hB hE (k + 1))).filter
    (fun q => decide (q > 0))

/-! ## Concrete inputs -/

/-- Five bins over `[0, 50]`. -/
def grid5 : TH1D := TH1D.new 5 0 50

/-- The TTF histogram of the script: 100 cells over `[0, 1000]`. -/
def ttfHist : TH1D := TH1D.new (Nbin / 10) ttfmin ttfmax

/-- An array of 32 counters: the first holds `x`, the others `0`. -/
def bits32 (x : ℤ) : List ℤ := x :: List.replicate 31 0

/-- An array of 16 counters: the first holds `x`, the others `0`. -/
def bits16 (x : ℤ) : List ℤ := x :: List.replicate 15 0

/-- An error stream whose previous-error sum changes inside bin 2. -/
def prevStream : List CpldSample :=
  [⟨0, bits32 0, bits32 0⟩, ⟨15, bits32 1, bits32 0⟩, ⟨25, bits32 2, bits32 3⟩]

/-- A monotonic fluence stream over three bins. -/
def monoStream : List BeamSample := [⟨0, 1⟩, ⟨12, 4⟩, ⟨13, 4⟩, ⟨27, 9⟩]

/-- The state in which the run 2 fluence loop starts on an empty histogram of
`N` bins over `[a, b]` when the first entry has fluence `v0`: `nbin = 1`,
`tl = a`, `th = GetBinLowEdge(2)`, `vl = v0`. -/
def fluenceStart (N : Nat) (a b v0 : ℚ) : ScanState :=
  { h := TH1D.new N a b, nbin := 1, tl := a, th := (TH1D.new N a b).GetBinLowEdge (1 + 1),
    vl := v0 }

/-- The state of that loop after it has read the entries `pre`. -/
def fluenceAfter (N : Nat) (a b v0 : ℚ) (pre : List BeamSample) : ScanState :=
  pre.foldl fluenceStep (fluenceStart N a b v0)

/-- Scenario 4: entries at `t = 5 + 10 j` whose `bit` sum is `j`, previous
errors all zero. -/
def steadyStream : List CpldSample :=
  [⟨5, bits32 0, bits32 0⟩, ⟨15, bits32 1, bits32 0⟩, ⟨25, bits32 2, bits32 0⟩,
   ⟨35, bits32 3, bits32 0⟩, ⟨45, bits32 4, bits32 0⟩]

/-- The state of the error loop before the first entry of `steadyStream`, over
five bins of width 10 starting at 0. -/
def steadyStart : ErrState :=
  { h := grid5, hTTF := ttfHist, nbin := 1, tl := 0, th := grid5.GetBinLowEdge (1 + 1),
    vl := 0, vl2 := .fin 0 }

/-- Scenario 2: `bit = [5, 0, ...]` at `t = 0` and again at `t = 50`, previous
errors all zero. -/
def scenario2Stream : List CpldSample :=
  [⟨0, bits32 5, bits32 0⟩, ⟨50, bits32 5, bits32 0⟩]

/-- Two bins over `[0, 80]`: the edge 40 lies strictly between 0 and 50. -/
def grid2 : TH1D := TH1D.new 2 0 80

/-- The state of the error loop before the first entry of `scenario2Stream`
over `grid2`, with `vl2` holding `0`. -/
def scenario2Start : ErrState :=
  { h := grid2, hTTF := ttfHist, nbin := 1, tl := 0, th := grid2.GetBinLowEdge (1 + 1),
    vl := 5, vl2 := .fin 0 }

/-- Run 2 error tree whose first entry has previous-error sum 5 and whose
second entry, 1000 s later, has one more current error. -/
def cpld2First : List CpldSample :=
  [⟨tr2min, bits32 0, bits32 5⟩, ⟨tr2min + 1000, bits32 1, bits32 5⟩]

/-- Run 2 error tree with one new error after 1000 s and no previous errors. -/
def cpld2Plain : List CpldSample :=
  [⟨tr2min, bits32 0, bits32 0⟩, ⟨tr2min + 1000, bits32 1, bits32 0⟩]

/-- Run 2 error tree with a single entry: no bin is closed. -/
def cpld2Single : List CpldSample := [⟨tr2min, bits32 0, bits32 0⟩]

/-- As `cpld2Plain`, but the closing entry has previous-error sum 6. -/
def cpld2Prev : List CpldSample :=
  [⟨tr2min, bits32 0, bits32 0⟩, ⟨tr2min + 1000, bits32 1, bits32 6⟩]

/-- Run 2 beam tree with a single entry. -/
def beam2One : List BeamSample := [⟨tr2min, 0⟩]

/-- Run 3 beam tree: fluence 7 reached 1000 s into the window. -/
def beam3Two : List BeamSample := [⟨tr3min, 0⟩, ⟨tr3min + 1000, 7⟩]

/-- Run 3 error tree with one new error after 1000 s and no previous errors. -/
def cpld3Plain : List CpldSample :=
  [⟨tr3min, bits16 0, bits16 0⟩, ⟨tr3min + 1000, bits16 1, bits16 0⟩]

/-- A fluence stream that ends inside the last of two bins over `[0, 20]`. -/
def shortStream : List BeamSample := [⟨0, 0⟩, ⟨11, 1⟩, ⟨12, 3⟩]

/-- An error stream that ends inside the last of two bins over `[0, 20]`. -/
def shortErrStream : List CpldSample :=
  [⟨0, bits32 0, bits32 0⟩, ⟨11, bits32 1, bits32 0⟩, ⟨12, bits32 3, bits32 0⟩]

/-! # Theorems -/

/-! ## Grid facts -/

theorem GetBinLowEdge_eq (h : TH1D) (i : Nat) :
    h.GetBinLowEdge i = edgeOf h.nbins h.xmin h.xmax i := rfl

theorem FindBin_inside (h : TH1D) (x : ℚ) (i : Nat) (hi : 1 ≤ i)
    (hlo : h.xmin ≤ x) (hhi : x < h.xmax)
    (h1 : ((i : ℚ) - 1) ≤ (h.nbins : ℚ) * (x - h.xmin) / (h.xmax - h.xmin))
    (h2 : (h.nbins : ℚ) * (x - h.xmin) / (h.xmax - h.xmin) < (i : ℚ)) :
    h.FindBin (.fin x) = i := by
  have hfl : ⌊(h.nbins : ℚ) * (x - h.xmin) / (h.xmax - h.xmin)⌋ = (i : ℤ) - 1 := by
    rw [Int.floor_eq_iff]
    constructor
    · push_cast
      exact h1
    · push_cast
      linarith
  simp only [TH1D.FindBin]
  rw [if_neg (not_lt.mpr hlo), if_neg (not_not.mpr hhi), hfl]
  omega

theorem FindBin_mid (h : TH1D) (i : Nat) (hw : h.xmin < h.xmax) (hi : 1 ≤ i)
    (hN : i ≤ h.nbins) :
    h.FindBin (.fin ((h.GetBinLowEdge i + h.GetBinLowEdge (i + 1)) / 2)) = i := by
  have hNpos : (0 : ℚ) < (h.nbins : ℚ) := by
    have : 0 < h.nbins := by omega
    exact_mod_cast this
  have hd : (0 : ℚ) < h.xmax - h.xmin := by linarith
  have hi1 : (1 : ℚ) ≤ (i : ℚ) := by exact_mod_cast hi
  have hiN : (i : ℚ) ≤ (h.nbins : ℚ) := by exact_mod_cast hN
  have hx : (h.GetBinLowEdge i + h.GetBinLowEdge (i + 1)) / 2
      = h.xmin + ((i : ℚ) - 1 / 2) * ((h.xmax - h.xmin) / (h.nbins : ℚ)) := by
    simp only [TH1D.GetBinLowEdge]
    push_cast
    ring
  have hq : (h.nbins : ℚ) * ((h.GetBinLowEdge i + h.GetBinLowEdge (i + 1)) / 2 - h.xmin)
      / (h.xmax - h.xmin) = (i : ℚ) - 1 / 2 := by
    rw [hx]
    field_simp
    ring
  have hwpos : 0 < (h.xmax - h.xmin) / (h.nbins : ℚ) := div_pos hd hNpos
  apply FindBin_inside h _ i hi
  · rw [hx]
    have : 0 ≤ ((i : ℚ) - 1 / 2) * ((h.xmax - h.xmin) / (h.nbins : ℚ)) :=
      mul_nonneg (by linarith) hwpos.le
    linarith
  · rw [hx]
    have h3 : ((i : ℚ) - 1 / 2) * ((h.xmax - h.xmin) / (h.nbins : ℚ))
        < (h.nbins : ℚ) * ((h.xmax - h.xmin) / (h.nbins : ℚ)) :=
      mul_lt_mul_of_pos_right (by linarith) hwpos
    have h4 : (h.nbins : ℚ) * ((h.xmax - h.xmin) / (h.nbins : ℚ)) = h.xmax - h.xmin := by
      field_simp
    linarith
  · rw [hq]
    linarith
  · rw [hq]
    linarith

theorem FindBin_edge (h : TH1D) (i : Nat) (hw : h.xmin < h.xmax) (hi : 1 ≤ i)
    (hN : i ≤ h.nbins) :
    h.FindBin (.fin (h.GetBinLowEdge i)) = i := by
  have hNpos : (0 : ℚ) < (h.nbins : ℚ) := by
    have : 0 < h.nbins := by omega
    exact_mod_cast this
  have hd : (0 : ℚ) < h.xmax - h.xmin := by linarith
  have hi1 : (1 : ℚ) ≤ (i : ℚ) := by exact_mod_cast hi
  have hiN : (i : ℚ) ≤ (h.nbins : ℚ) := by exact_mod_cast hN
  have hq : (h.nbins : ℚ) * (h.GetBinLowEdge i - h.xmin)
      / (h.xmax - h.xmin) = (i : ℚ) - 1 := by
    simp only [TH1D.GetBinLowEdge]
    field_simp
    ring
  have hwpos : 0 < (h.xmax - h.xmin) / (h.nbins : ℚ) := div_pos hd hNpos
  apply FindBin_inside h _ i hi
  · simp only [TH1D.GetBinLowEdge]
    have : 0 ≤ ((i : ℚ) - 1) * ((h.xmax - h.xmin) / (h.nbins : ℚ)) :=
      mul_nonneg (by linarith) hwpos.le
    linarith
  · simp only [TH1D.GetBinLowEdge]
    have h3 : ((i : ℚ) - 1) * ((h.xmax - h.xmin) / (h.nbins : ℚ))
        < (h.nbins : ℚ) * ((h.xmax - h.xmin) / (h.nbins : ℚ)) :=
      mul_lt_mul_of_pos_right (by linarith) hwpos
    have h4 : (h.nbins : ℚ) * ((h.xmax - h.xmin) / (h.nbins : ℚ)) = h.xmax - h.xmin := by
      field_simp
    linarith
  · rw [hq]
  · rw [hq]
    linarith

/-! ## The shared rebinning step -/

theorem fluenceStep_eq (st : ScanState) (s : BeamSample) :
    fluenceStep st s = rebinStep st (beamPair s) := rfl

theorem errorStep_toScan (nbits : Nat) (st : ErrState) (s : CpldSample) :
    (errorStep nbits st s).toScan = rebinStep st.toScan (cpldPair nbits s) := by
  unfold errorStep rebinStep cpldPair ErrState.toScan
  by_cases hc : s.t > st.th
  · simp only [hc, if_true]
  · simp only [hc, if_false]

theorem fluence_foldl (l : List BeamSample) (st : ScanState) :
    l.foldl fluenceStep st = (l.map beamPair).foldl rebinStep st := by
  induction l generalizing st with
  | nil => rfl
  | cons s l ih => simp only [List.foldl_cons, List.map_cons, ih, fluenceStep_eq]

theorem error_foldl (nbits : Nat) (l : List CpldSample) (st : ErrState) :
    (l.foldl (errorStep nbits) st).toScan
      = (l.map (cpldPair nbits)).foldl rebinStep st.toScan := by
  induction l generalizing st with
  | nil => rfl
  | cons s l ih => simp only [List.foldl_cons, List.map_cons, ih, errorStep_toScan]

/-! ### Axis and cells under `Fill` and `SetBinError` -/

theorem SetBinError_content (h : TH1D) (bin : Nat) (a b : ℚ) :
    (h.SetBinError bin a b).content = h.content := by
  unfold TH1D.SetBinError
  split <;> rfl

theorem SetBinError_nbins (h : TH1D) (bin : Nat) (a b : ℚ) :
    (h.SetBinError bin a b).nbins = h.nbins := by
  unfold TH1D.SetBinError
  split <;> rfl

theorem SetBinError_xmin (h : TH1D) (bin : Nat) (a b : ℚ) :
    (h.SetBinError bin a b).xmin = h.xmin := by
  unfold TH1D.SetBinError
  split <;> rfl

theorem SetBinError_xmax (h : TH1D) (bin : Nat) (a b : ℚ) :
    (h.SetBinError bin a b).xmax = h.xmax := by
  unfold TH1D.SetBinError
  split <;> rfl

theorem SetBinError_entries (h : TH1D) (bin : Nat) (a b : ℚ) :
    (h.SetBinError bin a b).entries = h.entries := by
  unfold TH1D.SetBinError
  split <;> rfl

theorem Fill_content (h : TH1D) (x : Dbl) (w : ℚ) (j : Nat) :
    (h.Fill x w).content j = if j = h.FindBin x then h.content j + w else h.content j := rfl

theorem Fill_entries (h : TH1D) (x : Dbl) (w : ℚ) :
    (h.Fill x w).entries = h.entries + 1 := rfl

/-- A closing entry: what `rebinStep` leaves in each variable. -/
theorem rebinStep_close (st : ScanState) (p : ℚ × ℚ) (hc : p.1 > st.th) :
    (rebinStep st p).nbin = st.nbin + 1 ∧ (rebinStep st p).tl = st.th ∧
    (rebinStep st p).vl = p.2 ∧
    (rebinStep st p).th = (if st.nbin + 2 ≤ st.h.nbins then st.h.GetBinLowEdge (st.nbin + 2)
      else st.th) ∧
    (rebinStep st p).h.nbins = st.h.nbins ∧ (rebinStep st p).h.xmin = st.h.xmin ∧
    (rebinStep st p).h.xmax = st.h.xmax ∧
    (∀ j, (rebinStep st p).h.content j
      = if j = st.h.FindBin (.fin ((st.tl + st.th) / 2)) then st.h.content j + (p.2 - st.vl)
        else st.h.content j) := by
  unfold rebinStep
  rw [if_pos hc]
  refine ⟨rfl, rfl, rfl, ?_, ?_, ?_, ?_, ?_⟩
  · simp only [TH1D.GetNbinsX, TH1D.GetBinLowEdge, SetBinError_nbins, SetBinError_xmin,
      SetBinError_xmax]
    rfl
  · rw [SetBinError_nbins]; rfl
  · rw [SetBinError_xmin]; rfl
  · rw [SetBinError_xmax]; rfl
  · intro j
    rw [SetBinError_content, Fill_content]

theorem rebinStep_skip (st : ScanState) (p : ℚ × ℚ) (hc : ¬ p.1 > st.th) :
    rebinStep st p = st := by
  unfold rebinStep
  simp only [hc, if_false]

/-! ### Which entry closes which bin -/

theorem seekAbove_gt (e : ℚ) (l : List (ℚ × ℚ)) (q : ℚ × ℚ) (r : List (ℚ × ℚ))
    (hs : seekAbove e l = some (q, r)) : q.1 > e := by
  induction l with
  | nil => simp [seekAbove] at hs
  | cons p l ih =>
    unfold seekAbove at hs
    by_cases hp : p.1 > e
    · rw [if_pos hp] at hs
      injection hs with hs
      injection hs with h1 h2
      rw [← h1]
      exact hp
    · rw [if_neg hp] at hs
      exact ih hs

theorem boundaryFrom_peel (edge : Nat → ℚ) (k : Nat) :
    ∀ (n : Nat) (v0 : ℚ) (l : List (ℚ × ℚ)),
      boundaryFrom edge n v0 l (k + 1) =
        match seekAbove (edge (n + 1)) l with
        | none => none
        | some (c, r) => boundaryFrom edge (n + 1) c.2 r k := by
  induction k with
  | zero =>
    intro n v0 l
    simp only [boundaryFrom, Nat.add_zero]
  | succ k ih =>
    intro n v0 l
    rw [boundaryFrom, ih n v0 l]
    cases hs : seekAbove (edge (n + 1)) l with
    | none => rfl
    | some cr =>
      obtain ⟨c, r⟩ := cr
      simp only []
      rw [boundaryFrom]
      have he : n + (k + 1) + 1 = n + 1 + k + 1 := by omega
      rw [he]

/-- The loop from a state runs unchanged up to the first entry above `th`. -/
theorem foldl_rebinStep_seek (l : List (ℚ × ℚ)) :
    ∀ st : ScanState,
      l.foldl rebinStep st =
        match seekAbove st.th l with
        | none => st
        | some (c, r) => r.foldl rebinStep (rebinStep st c) := by
  induction l with
  | nil => intro st; rfl
  | cons p l ih =>
    intro st
    by_cases hp : p.1 > st.th
    · simp only [List.foldl_cons, seekAbove, hp, if_true]
    · simp only [List.foldl_cons, seekAbove, hp, if_false, rebinStep_skip st p hp]
      exact ih st

theorem rebinStep_inv (N : Nat) (a b : ℚ) (st : ScanState) (p : ℚ × ℚ)
    (hinv : GridInv N a b st) :
    GridInv N a b (rebinStep st p) ∧ st.nbin ≤ (rebinStep st p).nbin ∧
    (∀ j, j ≠ st.nbin → j < N →
      (rebinStep st p).h.content j = st.h.content j) := by
  by_cases hc : p.1 > st.th
  · obtain ⟨hnb, htl, hvl, hth, hN, hmin, hmax, hcont⟩ := rebinStep_close st p hc
    obtain ⟨rfl, rfl, rfl, hab, h1, hcase⟩ := hinv
    rcases hcase with ⟨hlt, e1, e2⟩ | ⟨hge, hN1, e1, e2⟩
    · have hfb : st.h.FindBin (.fin ((st.tl + st.th) / 2)) = st.nbin := by
        rw [e1, e2]
        exact FindBin_mid st.h st.nbin hab h1 hlt.le
      refine ⟨⟨hN, hmin, hmax, hab, by omega, ?_⟩, by omega, ?_⟩
      · by_cases h2 : st.nbin + 2 ≤ st.h.nbins
        · left
          rw [if_pos h2] at hth
          refine ⟨by omega, ?_, ?_⟩
          · rw [htl, hnb, e2]
          · rw [hth, hnb]
            rfl
        · right
          rw [if_neg h2] at hth
          have hNe : st.h.nbins = st.nbin + 1 := by omega
          refine ⟨by omega, by omega, ?_, ?_⟩
          · rw [htl, e2, hNe]
          · rw [hth, e2, hNe]
      · intro j hj _
        rw [hcont j, hfb, if_neg hj]
    · have hfb : st.h.FindBin (.fin ((st.tl + st.th) / 2)) = st.h.nbins := by
        rw [e1, e2]
        have : (edgeOf st.h.nbins st.h.xmin st.h.xmax st.h.nbins
            + edgeOf st.h.nbins st.h.xmin st.h.xmax st.h.nbins) / 2
            = st.h.GetBinLowEdge st.h.nbins := by
          rw [GetBinLowEdge_eq]
          ring
        rw [this]
        exact FindBin_edge st.h st.h.nbins hab hN1 le_rfl
      refine ⟨⟨hN, hmin, hmax, hab, by omega, ?_⟩, by omega, ?_⟩
      · right
        have h2 : ¬ st.nbin + 2 ≤ st.h.nbins := by omega
        rw [if_neg h2] at hth
        refine ⟨by omega, hN1, ?_, ?_⟩
        · rw [htl, e2]
        · rw [hth, e2]
      · intro j _ hj
        rw [hcont j, hfb, if_neg (by omega)]
  · rw [rebinStep_skip st p hc]
    exact ⟨hinv, le_rfl, fun _ _ _ => rfl⟩

/-- Bins behind the one under construction are never written again. -/
theorem foldl_rebinStep_frame (N : Nat) (a b : ℚ) (l : List (ℚ × ℚ)) :
    ∀ st : ScanState, GridInv N a b st → ∀ j, j < st.nbin → j < N →
      (l.foldl rebinStep st).h.content j = st.h.content j := by
  induction l with
  | nil => intro st _ j _ _; rfl
  | cons p l ih =>
    intro st hinv j hj hjN
    obtain ⟨hinv2, hmono, hfr⟩ := rebinStep_inv N a b st p hinv
    rw [List.foldl_cons, ih (rebinStep st p) hinv2 j (by omega) hjN, hfr j (by omega) hjN]

/-- Value of a closed bin below the last one: the value at the boundary that
ends it minus the value at the boundary before. -/
theorem rebin_closed_bin (N : Nat) (a b : ℚ) (k : Nat) :
    ∀ (st : ScanState) (l : List (ℚ × ℚ)), GridInv N a b st → st.nbin + k < N →
      ∀ (c p : ℚ) (rc rp : List (ℚ × ℚ)),
        boundaryFrom (edgeOf N a b) st.nbin st.vl l (k + 1) = some (c, rc) →
        boundaryFrom (edgeOf N a b) st.nbin st.vl l k = some (p, rp) →
        (l.foldl rebinStep st).h.content (st.nbin + k)
          = st.h.content (st.nbin + k) + (c - p) := by
  induction k with
  | zero =>
    intro st l hinv hk c p rc rp hc hp
    rw [boundaryFrom_peel] at hc
    simp only [boundaryFrom] at hp
    injection hp with hp
    injection hp with hp1 hp2
    have hth : st.th = edgeOf N a b (st.nbin + 1) := by
      rcases hinv.2.2.2.2.2 with ⟨_, _, e2⟩ | ⟨hge, _⟩
      · exact e2
      · omega
    rw [foldl_rebinStep_seek l st, hth]
    cases hs : seekAbove (edgeOf N a b (st.nbin + 1)) l with
    | none => rw [hs] at hc; simp at hc
    | some qr =>
      obtain ⟨q, r⟩ := qr
      rw [hs] at hc
      simp only [boundaryFrom] at hc
      injection hc with hc
      injection hc with hc1 hc2
      have hgt : q.1 > st.th := by
        rw [hth]
        exact seekAbove_gt _ _ _ _ hs
      obtain ⟨hinv2, _, _⟩ := rebinStep_inv N a b st q hinv
      obtain ⟨hnb, _, _, _, _, _, _, hcont⟩ := rebinStep_close st q hgt
      have hfb : st.h.FindBin (.fin ((st.tl + st.th) / 2)) = st.nbin := by
        obtain ⟨rfl, rfl, rfl, hab, h1, hcase⟩ := hinv
        rcases hcase with ⟨hlt, e1, e2⟩ | ⟨hge, _⟩
        · rw [e1, e2]
          exact FindBin_mid st.h st.nbin hab h1 hlt.le
        · omega
      simp only [Nat.add_zero]
      rw [foldl_rebinStep_frame N a b r (rebinStep st q) hinv2 st.nbin (by omega) (by omega),
        hcont st.nbin, hfb, if_pos rfl, ← hc1, ← hp1]
  | succ k ih =>
    intro st l hinv hk c p rc rp hc hp
    rw [boundaryFrom_peel] at hc hp
    have hth : st.th = edgeOf N a b (st.nbin + 1) := by
      rcases hinv.2.2.2.2.2 with ⟨_, _, e2⟩ | ⟨hge, _⟩
      · exact e2
      · omega
    rw [foldl_rebinStep_seek l st, hth]
    cases hs : seekAbove (edgeOf N a b (st.nbin + 1)) l with
    | none => rw [hs] at hc; simp at hc
    | some qr =>
      obtain ⟨q, r⟩ := qr
      rw [hs] at hc hp
      simp only [] at hc hp
      have hgt : q.1 > st.th := by
        rw [hth]
        exact seekAbove_gt _ _ _ _ hs
      obtain ⟨hinv2, _, hfr⟩ := rebinStep_inv N a b st q hinv
      obtain ⟨hnb, _, hvl, _, _, _, _, _⟩ := rebinStep_close st q hgt
      have key := ih (rebinStep st q) r hinv2 (by omega) c p rc rp
        (by rw [hnb, hvl]; exact hc) (by rw [hnb, hvl]; exact hp)
      rw [hnb] at key
      have hidx : st.nbin + (k + 1) = st.nbin + 1 + k := by omega
      simp only []
      rw [hidx, key, hfr (st.nbin + 1 + k) (by omega) (by omega)]

/-! ## C1: value of a closed fluence bin -/

theorem boundaryFrom_fst (edge : Nat → ℚ) (n : Nat) (v0 : ℚ) (l : List (ℚ × ℚ)) (i : Nat)
    (c : ℚ) (hb : (boundaryFrom edge n v0 l i).map Prod.fst = some c) :
    ∃ r, boundaryFrom edge n v0 l i = some (c, r) := by
  cases hq : boundaryFrom edge n v0 l i with
  | none => rw [hq] at hb; simp at hb
  | some cr =>
    obtain ⟨c1, r⟩ := cr
    rw [hq] at hb
    simp only [Option.map_some', Option.some.injEq] at hb
    exact ⟨r, by rw [hb]⟩

theorem edgeOf_one (N : Nat) (a b : ℚ) : edgeOf N a b 1 = a := by
  simp [edgeOf]

theorem foldl_rebinStep_nbins (l : List (ℚ × ℚ)) :
    ∀ st : ScanState, (l.foldl rebinStep st).h.nbins = st.h.nbins := by
  induction l with
  | nil => intro st; rfl
  | cons q l ih =>
    intro st
    rw [List.foldl_cons, ih]
    by_cases hq : q.1 > st.th
    · exact (rebinStep_close st q hq).2.2.2.2.1
    · rw [rebinStep_skip st q hq]

/-- Rebinning from bin 1 of an empty histogram: a closed bin `i < N` holds the
value at its closing boundary minus the value at the boundary before. -/
theorem rebin_from_start (N : Nat) (a b : ℚ) (hab : a < b) (v0 : ℚ) (l : List (ℚ × ℚ))
    (i : Nat) (hi : 1 ≤ i) (hiN : i < N) (c p : ℚ)
    (hc : (boundaryFrom (edgeOf N a b) 1 v0 l i).map Prod.fst = some c)
    (hp : (boundaryFrom (edgeOf N a b) 1 v0 l (i - 1)).map Prod.fst = some p) :
    (l.foldl rebinStep
      { h := TH1D.new N a b, nbin := 1, tl := a, th := (TH1D.new N a b).GetBinLowEdge (1 + 1),
        vl := v0 }).h.GetBinContent i = c - p := by
  obtain ⟨rc, hc⟩ := boundaryFrom_fst _ _ _ _ _ _ hc
  obtain ⟨rp, hp⟩ := boundaryFrom_fst _ _ _ _ _ _ hp
  have hinv : GridInv N a b
      { h := TH1D.new N a b, nbin := 1, tl := a, th := (TH1D.new N a b).GetBinLowEdge (1 + 1),
        vl := v0 } := by
    refine ⟨rfl, rfl, rfl, hab, le_rfl, Or.inl ⟨by simp only; omega, ?_, rfl⟩⟩
    simp only [edgeOf_one]
  obtain ⟨k, rfl⟩ : ∃ k, i = k + 1 := ⟨i - 1, by omega⟩
  have hpk : k + 1 - 1 = k := by omega
  rw [hpk] at hp
  have key := rebin_closed_bin N a b k _ l hinv (by simp only; omega) c p rc rp hc hp
  unfold TH1D.GetBinContent
  rw [foldl_rebinStep_nbins l _, Nat.min_eq_left (by simp only [TH1D.new]; omega)]
  simp only [TH1D.new] at key ⊢
  rw [Nat.add_comm k 1, key]
  ring

theorem seekAbove_mem (e : ℚ) (l : List (ℚ × ℚ)) (q : ℚ × ℚ) (r : List (ℚ × ℚ))
    (hs : seekAbove e l = some (q, r)) : q ∈ l ∧ ∀ x ∈ r, x ∈ l := by
  induction l with
  | nil => simp [seekAbove] at hs
  | cons p l ih =>
    unfold seekAbove at hs
    by_cases hp : p.1 > e
    · rw [if_pos hp] at hs
      injection hs with hs
      injection hs with h1 h2
      subst h1 h2
      exact ⟨List.mem_cons_self _ _, fun x hx => List.mem_cons_of_mem _ hx⟩
    · rw [if_neg hp] at hs
      obtain ⟨h1, h2⟩ := ih hs
      exact ⟨List.mem_cons_of_mem _ h1, fun x hx => List.mem_cons_of_mem _ (h2 x hx)⟩

theorem boundaryFrom_rest (edge : Nat → ℚ) (n : Nat) (v0 : ℚ) (l : List (ℚ × ℚ))
    (k : Nat) :
    ∀ (v : ℚ) (rest : List (ℚ × ℚ)), boundaryFrom edge n v0 l k = some (v, rest) →
      ∀ x ∈ rest, x ∈ l := by
  induction k with
  | zero =>
    intro v rest hb
    simp only [boundaryFrom, Option.some.injEq, Prod.mk.injEq] at hb
    rw [← hb.2]
    exact fun x hx => hx
  | succ k ih =>
    intro v rest hb
    rw [boundaryFrom] at hb
    cases hq : boundaryFrom edge n v0 l k with
    | none => rw [hq] at hb; simp at hb
    | some vr =>
      obtain ⟨v1, r1⟩ := vr
      rw [hq] at hb
      simp only [] at hb
      cases hs : seekAbove (edge (n + k + 1)) r1 with
      | none => rw [hs] at hb; simp at hb
      | some cr =>
        obtain ⟨c, r⟩ := cr
        rw [hs] at hb
        simp only [Option.some.injEq, Prod.mk.injEq] at hb
        intro x hx
        rw [← hb.2] at hx
        exact ih v1 r1 hq x ((seekAbove_mem _ _ _ _ hs).2 x hx)

/-- Every boundary after the initial one carries the value of an entry of the
stream. -/
theorem boundaryFrom_mem (edge : Nat → ℚ) (n : Nat) (v0 : ℚ) (l : List (ℚ × ℚ)) (k : Nat)
    (c : ℚ) (hb : (boundaryFrom edge n v0 l (k + 1)).map Prod.fst = some c) :
    ∃ q ∈ l, q.2 = c := by
  obtain ⟨r, hb⟩ := boundaryFrom_fst _ _ _ _ _ _ hb
  rw [boundaryFrom] at hb
  cases hq : boundaryFrom edge n v0 l k with
  | none => rw [hq] at hb; simp at hb
  | some vr =>
    obtain ⟨v1, r1⟩ := vr
    rw [hq] at hb
    simp only [] at hb
    cases hs : seekAbove (edge (n + k + 1)) r1 with
    | none => rw [hs] at hb; simp at hb
    | some cr =>
      obtain ⟨q, r2⟩ := cr
      rw [hs] at hb
      simp only [Option.some.injEq, Prod.mk.injEq] at hb
      exact ⟨q, boundaryFrom_rest edge n v0 l k v1 r1 hq q (seekAbove_mem _ _ _ _ hs).1, hb.1⟩

/-- C5 (as amended): for a grid of `N` bins over `[a, b]` with `a < b`, every
bin `i` with `2 ≤ i < N` that the error scan closes holds `E(closing entry) -
E(entry of the previous bin boundary)`, where `E` is the sum of the
current-error array `bit` ALONE over the run's bit width; the previous-error
array `bitP` does not enter the recorded value. -/
theorem C5_error_bin_value (nbits N : Nat) (a b : ℚ) (hab : a < b) (hTTF : TH1D)
    (vl2 : Dbl) (tr : List CpldSample) (i : Nat) (hi : 2 ≤ i) (hiN : i < N) (c p : ℚ)
    (hc : errorBoundary nbits (TH1D.new N a b) tr i = some c)
    (hp : errorBoundary nbits (TH1D.new N a b) tr (i - 1) = some p) :
    (errorScan nbits (TH1D.new N a b) hTTF a vl2 tr).h.GetBinContent i = c - p ∧
    (∃ s ∈ tr, c = sumBits nbits s.bit) ∧ (∃ s ∈ tr, p = sumBits nbits s.bit) := by
  refine ⟨?_, ?_, ?_⟩
  · have hproj := error_foldl nbits tr
      { h := TH1D.new N a b, hTTF := hTTF, nbin := 1, tl := a,
        th := (TH1D.new N a b).GetBinLowEdge (1 + 1),
        vl := (tr.head?.map (fun s => sumBits nbits s.bit + sumBits nbits s.bitP)).getD 0,
        vl2 := vl2 }
    have hh : (errorScan nbits (TH1D.new N a b) hTTF a vl2 tr).h
        = ((tr.map (cpldPair nbits)).foldl rebinStep
            { h := TH1D.new N a b, nbin := 1, tl := a,
              th := (TH1D.new N a b).GetBinLowEdge (1 + 1),
              vl := (tr.head?.map
                (fun s => sumBits nbits s.bit + sumBits nbits s.bitP)).getD 0 }).h := by
      exact congrArg ScanState.h hproj
    rw [hh]
    exact rebin_from_start N a b hab _ _ i (by omega) hiN c p hc hp
  · obtain ⟨k, rfl⟩ : ∃ k, i = k + 1 := ⟨i - 1, by omega⟩
    obtain ⟨q, hq, hqc⟩ := boundaryFrom_mem _ _ _ _ k c hc
    obtain ⟨s, hs, rfl⟩ := List.mem_map.mp hq
    exact ⟨s, hs, hqc.symm⟩
  · obtain ⟨k, rfl⟩ : ∃ k, i = k + 1 + 1 := ⟨i - 2, by omega⟩
    obtain ⟨q, hq, hqc⟩ := boundaryFrom_mem _ _ _ _ k p hp
    obtain ⟨s, hs, rfl⟩ := List.mem_map.mp hq
    exact ⟨s, hs, hqc.symm⟩

theorem sumBits_bits32 (x : ℤ) : sumBits 32 (bits32 x) = x := by
  simp [sumBits, bits32, List.range_succ, List.replicate]

theorem sumBits_bits16 (x : ℤ) : sumBits 16 (bits16 x) = x := by
  simp [sumBits, bits16, List.range_succ, List.replicate]

/-- Witness of C5 (as amended): five bins over `[0, 50]`, entries at
`t = 0, 15, 25` with `bit` sums `0, 1, 2` and `bitP` sums `0, 0, 3`; bin 2 holds
`2 - 1`. -/
theorem C5_error_bin_value_witness :
    errorBoundary 32 (TH1D.new 5 0 50) prevStream 2 = some 2 ∧
    errorBoundary 32 (TH1D.new 5 0 50) prevStream (2 - 1) = some 1 ∧
    (errorScan 32 (TH1D.new 5 0 50) ttfHist 0 (.fin 0) prevStream).h.GetBinContent 2
      = 2 - 1 := by
  have h2 : errorBoundary 32 (TH1D.new 5 0 50) prevStream 2 = some 2 := by
    norm_num [errorBoundary, boundaryFrom, seekAbove, prevStream, cpldPair, sumBits_bits32,
      TH1D.GetBinLowEdge, TH1D.new]
  have h1 : errorBoundary 32 (TH1D.new 5 0 50) prevStream (2 - 1) = some 1 := by
    norm_num [errorBoundary, boundaryFrom, seekAbove, prevStream, cpldPair, sumBits_bits32,
      TH1D.GetBinLowEdge, TH1D.new]
  exact ⟨h2, h1, (C5_error_bin_value 32 5 0 50 (by norm_num) ttfHist (.fin 0) prevStream 2
    (by norm_num) (by norm_num) 2 1 h2 h1).1⟩

/-- Counterexample to C5 as stated: five bins over `[0, 50]`, entries at
`t = 0, 15, 25` with `bit` sums `0, 1, 2` and `bitP` sums `0, 0, 3`.  Bin 2 is
closed by the entry at `t = 25` and its previous boundary is the entry at
`t = 15`; the combined sums differ by `5 - 1 = 4`, the scan records `1`. -/
theorem C5_counterexample :
    (errorScan 32 grid5 ttfHist 0 (.fin 0) prevStream).h.GetBinContent 2 = 1 ∧
    combinedSum 32 ⟨25, bits32 2, bits32 3⟩ - combinedSum 32 ⟨15, bits32 1, bits32 0⟩
      = 4 := by
  constructor
  · norm_num [errorScan, errorStep, prevStream, grid5, ttfHist, sumBits_bits32, TH1D.Fill,
      TH1D.SetBinError, TH1D.GetBinContent, TH1D.new, TH1D.GetBinLowEdge, TH1D.GetNbinsX,
      TH1D.FindBin, Int.floor_eq_iff, Dbl.div, Dbl.gt, Dbl.add]
  · norm_num [combinedSum, sumBits_bits32]

/-! ## C9: a monotonic counter gives non-negative bins -/

theorem foldl_rebinStep_nonneg (l : List (ℚ × ℚ)) :
    ∀ st : ScanState, (∀ j, 0 ≤ st.h.content j) →
      List.Chain (fun x y : ℚ => x ≤ y) st.vl (l.map Prod.snd) →
      ∀ j, 0 ≤ (l.foldl rebinStep st).h.content j := by
  induction l with
  | nil => intro st h0 _ j; exact h0 j
  | cons q l ih =>
    intro st h0 hch j
    rw [List.map_cons, List.chain_cons] at hch
    obtain ⟨hle, hch⟩ := hch
    rw [List.foldl_cons]
    by_cases hq : q.1 > st.th
    · obtain ⟨_, _, hvl, _, _, _, _, hcont⟩ := rebinStep_close st q hq
      apply ih
      · intro j
        rw [hcont j]
        split
        · have := h0 j
          linarith
        · exact h0 j
      · rw [hvl]
        exact hch
    · rw [rebinStep_skip st q hq]
      apply ih st h0
      cases hl : l.map Prod.snd with
      | nil => exact List.Chain.nil
      | cons y ys =>
        rw [hl, List.chain_cons] at hch
        exact List.Chain.cons (le_trans hle hch.1) hch.2

/-- C9: for every grid and every fluence stream whose cumulative fluence never
decreases from one entry to the next, every cell `i` of the histogram the
fluence scan produces (bins `1 .. N`, the last bin included) is non-negative.
Neither the order of the timestamps, nor the number of bins, nor the value of
`nbin` the loop starts from (1 in run 2) matters for this. -/
theorem C9_monotone_nonneg (N : Nat) (a b : ℚ) (nbin : Nat) (tr : List BeamSample)
    (hmono : List.Chain' (fun x y : ℚ => x ≤ y) (tr.map BeamSample.HEH)) (i : Nat) :
    0 ≤ (fluenceScan (TH1D.new N a b) nbin a tr).h.GetBinContent i := by
  unfold fluenceScan TH1D.GetBinContent
  rw [fluence_foldl]
  apply foldl_rebinStep_nonneg
  · intro j
    exact le_rfl
  · cases tr with
    | nil => exact List.Chain.nil
    | cons s tr =>
      simp only [List.map_cons, List.Chain'] at hmono
      simp only [List.head?_cons, Option.map_some', Option.getD_some, List.map_cons, beamPair]
      refine List.Chain.cons le_rfl ?_
      have hmap : List.map Prod.snd (List.map beamPair tr) = List.map BeamSample.HEH tr := by
        rw [List.map_map]
        rfl
      rw [hmap]
      exact hmono

/-- Witness of C9: three bins over `[0, 30]` and a stream with fluence
`1, 4, 4, 9`; the last bin is non-negative. -/
theorem C9_monotone_nonneg_witness :
    List.Chain' (fun x y : ℚ => x ≤ y) (monoStream.map BeamSample.HEH) ∧
    0 ≤ (fluenceScan (TH1D.new 3 0 30) 1 0 monoStream).h.GetBinContent 3 := by
  have hm : List.Chain' (fun x y : ℚ => x ≤ y) (monoStream.map BeamSample.HEH) := by
    norm_num [monoStream, List.Chain']
  exact ⟨hm, C9_monotone_nonneg 3 0 30 1 monoStream hm 3⟩

/-! ## C4: FTF derivation -/

theorem ftf_foldl_aux (hD acc : TH1D) (l : List Nat) (hl : ∀ k ∈ l, k + 1 ≤ hD.nbins + 1) :
    l.foldl (fun acc k =>
        let vl := hD.GetBinContent (k + 1)
        if vl > 0 then acc.Fill (.fin vl) 1 else acc) acc
      = ((l.map (fun k => hD.content (k + 1))).filter (fun q => decide (q > 0))).foldl
          (fun acc v => acc.Fill (.fin v) 1) acc := by
  induction l generalizing acc with
  | nil => rfl
  | cons k l ih =>
    have hk : hD.GetBinContent (k + 1) = hD.content (k + 1) := by
      unfold TH1D.GetBinContent
      rw [Nat.min_eq_left (hl k (List.mem_cons_self _ _))]
    have hl2 : ∀ k ∈ l, k + 1 ≤ hD.nbins + 1 := fun x hx => hl x (List.mem_cons_of_mem _ hx)
    simp only [List.foldl_cons, List.map_cons, hk]
    by_cases hpos : hD.content (k + 1) > 0
    · rw [if_pos hpos, List.filter_cons_of_pos (by simpa using hpos), List.foldl_cons]
      exact ih _ hl2
    · rw [if_neg hpos, List.filter_cons_of_neg (by simpa using hpos)]
      exact ih _ hl2

theorem foldl_Fill_entries (l : List ℚ) (acc : TH1D) :
    (l.foldl (fun acc v => acc.Fill (.fin v) 1) acc).entries = acc.entries + l.length := by
  induction l generalizing acc with
  | nil => rfl
  | cons v l ih =>
    rw [List.foldl_cons, ih, Fill_entries, List.length_cons]
    omega

/-- C4: for every pair of histograms `hB` (fluence) and `hE` (errors), the FTF
stage fills the FTF histogram once for each bin `1 .. N` whose quotient
`hB[i] / hE[i]` is strictly positive, with that quotient, in bin order, and not
at all for the other bins; a bin with `hE[i] = 0` has quotient `0` and is
skipped.  The entry count grows by the number of strictly positive quotients. -/
theorem C4_ftf_observations (hB hE hFTF : TH1D) :
    ftfStage hB hE hFTF
      = (ftfObservations hB hE).foldl (fun acc v => acc.Fill (.fin v) 1) hFTF ∧
    (ftfStage hB hE hFTF).entries
      = hFTF.entries
        + ((List.range hB.nbins).filter
            (fun k => decide (binQuotient hB hE (k + 1) > 0))).length ∧
    (∀ i, hE.content i = 0 → binQuotient hB hE i = 0) := by
  have hstage : ftfStage hB hE hFTF
      = (ftfObservations hB hE).foldl (fun acc v => acc.Fill (.fin v) 1) hFTF := by
    unfold ftfStage ftfLoop ftfObservations
    have hl : ∀ k ∈ List.range (hB.Divide hE).GetNbinsX,
        k + 1 ≤ (hB.Divide hE).nbins + 1 := by
      intro k hk
      have := List.mem_range.mp hk
      simp only [TH1D.GetNbinsX] at this
      omega
    rw [ftf_foldl_aux (hB.Divide hE) hFTF _ hl]
    have hq : (fun k => (hB.Divide hE).content (k + 1))
        = (fun k => binQuotient hB hE (k + 1)) := by
      funext k
      simp only [TH1D.Divide, binQuotient, ne_eq, ite_not]
    rw [hq]
    rfl
  refine ⟨hstage, ?_, ?_⟩
  · rw [hstage, foldl_Fill_entries]
    unfold ftfObservations
    rw [List.filter_map, List.length_map]
    rfl
  · intro i hi
    simp only [binQuotient, hi, if_true]

/-! ## C7: an entry on the high edge does not close the bin -/

/-- One entry met while `tl` and `th` are the edges of bin `nbin`: on the high
edge nothing changes, above it the bin is closed. -/
theorem fluenceStep_on_edge (st : ScanState) (s : BeamSample) (hw : st.h.xmin < st.h.xmax)
    (h1 : 1 ≤ st.nbin) (hN : st.nbin ≤ st.h.nbins)
    (htl : st.tl = st.h.GetBinLowEdge st.nbin)
    (hth : st.th = st.h.GetBinLowEdge (st.nbin + 1)) :
    (s.t = st.th → fluenceStep st s = st) ∧
    (s.t > st.th →
      (fluenceStep st s).h.GetBinContent st.nbin
        = st.h.GetBinContent st.nbin + (s.HEH - st.vl) ∧
      (fluenceStep st s).h.sumw2 st.nbin = ⟨some (s.HEH, st.vl), 0⟩ ∧
      (fluenceStep st s).nbin = st.nbin + 1) := by
  constructor
  · intro he
    rw [fluenceStep_eq]
    apply rebinStep_skip
    simp only [beamPair, he, gt_iff_lt, lt_self_iff_false, not_false_eq_true]
  · intro hgt
    have hfb : st.h.FindBin (.fin ((st.tl + st.th) / 2)) = st.nbin := by
      rw [htl, hth]
      exact FindBin_mid st.h st.nbin hw h1 hN
    obtain ⟨hnb, _, _, _, hnbins, _, _, hcont⟩ := rebinStep_close st (beamPair s) hgt
    rw [fluenceStep_eq]
    refine ⟨?_, ?_, hnb⟩
    · unfold TH1D.GetBinContent
      rw [hnbins, Nat.min_eq_left (by omega), hcont, hfb, if_pos rfl]
      rfl
    · have hgt2 : (beamPair s).1 > st.th := hgt
      unfold rebinStep
      rw [if_pos hgt2]
      simp only [TH1D.SetBinError, TH1D.Fill]
      rw [if_neg (by omega)]
      simp only [if_true, beamPair]

theorem foldl_rebinStep_GridInv (N : Nat) (a b : ℚ) (l : List (ℚ × ℚ)) :
    ∀ st : ScanState, GridInv N a b st → GridInv N a b (l.foldl rebinStep st) := by
  induction l with
  | nil => intro st h; exact h
  | cons q l ih =>
    intro st h
    rw [List.foldl_cons]
    exact ih _ (rebinStep_inv N a b st q h).1

/-- The bin counter never decreases, and while it stands still nothing else
changes either. -/
theorem foldl_rebinStep_nbin (l : List (ℚ × ℚ)) :
    ∀ st : ScanState, st.nbin ≤ (l.foldl rebinStep st).nbin ∧
      ((l.foldl rebinStep st).nbin = st.nbin → l.foldl rebinStep st = st) := by
  induction l with
  | nil => intro st; exact ⟨le_rfl, fun _ => rfl⟩
  | cons q l ih =>
    intro st
    rw [List.foldl_cons]
    by_cases hq : q.1 > st.th
    · obtain ⟨hle, _⟩ := ih (rebinStep st q)
      have hnb := (rebinStep_close st q hq).1
      exact ⟨by omega, fun he => by omega⟩
    · rw [rebinStep_skip st q hq]
      exact ih st

/-- C7 (as amended): take the fluence scan over `N` bins on `[a, b]`, `a < b`,
after it has read any entries `pre`, at a moment when it is building the only
bin of a one-bin grid or a bin `nbin < N` below the last one.  Then `th` is
the high edge of bin `nbin`; an entry whose timestamp EQUALS that edge changes
nothing (the bin stays open, as in Scenario 1); an entry whose timestamp is
strictly greater closes the bin, adding `v_high - v_low` to bin `nbin` and
setting its error to `sqrt(v_high) + sqrt(v_low)`.  Nothing is said about the
last bin of a grid of two or more bins. -/
theorem C7_strict_edge (N : Nat) (a b v0 : ℚ) (hab : a < b) (pre : List BeamSample)
    (s : BeamSample)
    (hbin : (fluenceAfter N a b v0 pre).nbin < N ∨
      (N = 1 ∧ (fluenceAfter N a b v0 pre).nbin = 1)) :
    (fluenceAfter N a b v0 pre).th
      = (TH1D.new N a b).GetBinLowEdge ((fluenceAfter N a b v0 pre).nbin + 1) ∧
    (s.t = (TH1D.new N a b).GetBinLowEdge ((fluenceAfter N a b v0 pre).nbin + 1) →
      fluenceStep (fluenceAfter N a b v0 pre) s = fluenceAfter N a b v0 pre) ∧
    (s.t > (TH1D.new N a b).GetBinLowEdge ((fluenceAfter N a b v0 pre).nbin + 1) →
      (fluenceStep (fluenceAfter N a b v0 pre) s).h.GetBinContent
          (fluenceAfter N a b v0 pre).nbin
        = (fluenceAfter N a b v0 pre).h.GetBinContent (fluenceAfter N a b v0 pre).nbin
          + (s.HEH - (fluenceAfter N a b v0 pre).vl) ∧
      (fluenceStep (fluenceAfter N a b v0 pre) s).h.sumw2 (fluenceAfter N a b v0 pre).nbin
        = ⟨some (s.HEH, (fluenceAfter N a b v0 pre).vl), 0⟩ ∧
      (fluenceStep (fluenceAfter N a b v0 pre) s).nbin
        = (fluenceAfter N a b v0 pre).nbin + 1) := by
  have hfold : fluenceAfter N a b v0 pre
      = (pre.map beamPair).foldl rebinStep (fluenceStart N a b v0) := fluence_foldl pre _
  have hmono := foldl_rebinStep_nbin (pre.map beamPair) (fluenceStart N a b v0)
  rw [← hfold] at hmono
  have hfacts : (fluenceAfter N a b v0 pre).h.nbins = N ∧
      (fluenceAfter N a b v0 pre).h.xmin = a ∧ (fluenceAfter N a b v0 pre).h.xmax = b ∧
      1 ≤ (fluenceAfter N a b v0 pre).nbin ∧ (fluenceAfter N a b v0 pre).nbin ≤ N ∧
      (fluenceAfter N a b v0 pre).tl = edgeOf N a b (fluenceAfter N a b v0 pre).nbin ∧
      (fluenceAfter N a b v0 pre).th
        = edgeOf N a b ((fluenceAfter N a b v0 pre).nbin + 1) := by
    rcases hbin with hlt | ⟨hN1, hnb⟩
    · have h1 : 1 ≤ (fluenceAfter N a b v0 pre).nbin := hmono.1
      have hinv0 : GridInv N a b (fluenceStart N a b v0) :=
        ⟨rfl, rfl, rfl, hab, le_rfl,
          Or.inl ⟨by simp only [fluenceStart]; omega, (edgeOf_one N a b).symm, rfl⟩⟩
      have hinv := foldl_rebinStep_GridInv N a b (pre.map beamPair) _ hinv0
      rw [← hfold] at hinv
      obtain ⟨e1, e2, e3, _, _, hcase⟩ := hinv
      rcases hcase with ⟨_, t1, t2⟩ | ⟨hge, _⟩
      · exact ⟨e1, e2, e3, h1, hlt.le, t1, t2⟩
      · omega
    · have hst : fluenceAfter N a b v0 pre = fluenceStart N a b v0 := hmono.2 hnb
      rw [hst]
      exact ⟨rfl, rfl, rfl, le_rfl, by simp only [fluenceStart]; omega,
        (edgeOf_one N a b).symm, rfl⟩
  obtain ⟨e1, e2, e3, h1, hN, htl, hth⟩ := hfacts
  have hstep := fun hth2 => fluenceStep_on_edge (fluenceAfter N a b v0 pre) s
    (by rw [e2, e3]; exact hab) h1 (by rw [e1]; exact hN)
    (by rw [htl, GetBinLowEdge_eq, e1, e2, e3]) hth2
  have hth' : (fluenceAfter N a b v0 pre).th
      = (fluenceAfter N a b v0 pre).h.GetBinLowEdge ((fluenceAfter N a b v0 pre).nbin + 1) := by
    rw [hth, GetBinLowEdge_eq, e1, e2, e3]
  have hedge : (TH1D.new N a b).GetBinLowEdge ((fluenceAfter N a b v0 pre).nbin + 1)
      = (fluenceAfter N a b v0 pre).th := by
    rw [hth]
    rfl
  rw [hedge]
  exact ⟨rfl, (hstep hth').1, (hstep hth').2⟩

/-- Witness of C7 (as amended), on Scenario 1's single bin `[0, 100)` after the
entry `(0, 0)`: the entry `(100, 50)` leaves the state as it is, the entry
`(101, 50)` closes bin 1 with value `50` and error `sqrt(50) + sqrt(0)`.  On
three bins over `[0, 30]` the entry `(10, 5)` on the edge of bin 1 leaves the
state as it is. -/
theorem C7_strict_edge_witness :
    fluenceStep (fluenceAfter 1 0 100 0 [⟨0, 0⟩]) ⟨100, 50⟩
      = fluenceAfter 1 0 100 0 [⟨0, 0⟩] ∧
    (fluenceStep (fluenceAfter 1 0 100 0 [⟨0, 0⟩]) ⟨101, 50⟩).h.GetBinContent 1
      = 0 + (50 - 0) ∧
    (fluenceStep (fluenceAfter 1 0 100 0 [⟨0, 0⟩]) ⟨101, 50⟩).h.sumw2 1
      = ⟨some (50, 0), 0⟩ ∧
    fluenceStep (fluenceAfter 3 0 30 0 [⟨0, 0⟩]) ⟨10, 5⟩ = fluenceAfter 3 0 30 0 [⟨0, 0⟩] := by
  have hst : fluenceAfter 1 0 100 0 [⟨0, 0⟩] = fluenceStart 1 0 100 0 := by
    norm_num [fluenceAfter, fluenceStart, fluenceStep, TH1D.new, TH1D.GetBinLowEdge]
  have hnb : (fluenceAfter 1 0 100 0 [⟨0, 0⟩]).nbin = 1 := by rw [hst]; rfl
  have hedge : (TH1D.new 1 0 100).GetBinLowEdge ((fluenceAfter 1 0 100 0 [⟨0, 0⟩]).nbin + 1)
      = 100 := by
    rw [hnb]
    norm_num [TH1D.new, TH1D.GetBinLowEdge]
  have hA := C7_strict_edge 1 0 100 0 (by norm_num) [⟨0, 0⟩] ⟨100, 50⟩ (Or.inr ⟨rfl, hnb⟩)
  have hB := C7_strict_edge 1 0 100 0 (by norm_num) [⟨0, 0⟩] ⟨101, 50⟩ (Or.inr ⟨rfl, hnb⟩)
  have h2 := hB.2.2 (by rw [hedge]; norm_num)
  rw [hnb] at h2
  have hvl : (fluenceAfter 1 0 100 0 [⟨0, 0⟩]).vl = 0 := by rw [hst]; rfl
  have hc0 : (fluenceAfter 1 0 100 0 [⟨0, 0⟩]).h.GetBinContent 1 = 0 := by rw [hst]; rfl
  rw [hvl, hc0] at h2
  have hst3 : fluenceAfter 3 0 30 0 [⟨0, 0⟩] = fluenceStart 3 0 30 0 := by
    norm_num [fluenceAfter, fluenceStart, fluenceStep, TH1D.new, TH1D.GetBinLowEdge]
  have hnb3 : (fluenceAfter 3 0 30 0 [⟨0, 0⟩]).nbin = 1 := by rw [hst3]; rfl
  have hC := C7_strict_edge 3 0 30 0 (by norm_num) [⟨0, 0⟩] ⟨10, 5⟩
    (Or.inl (by rw [hnb3]; norm_num))
  have hedge3 : (TH1D.new 3 0 30).GetBinLowEdge ((fluenceAfter 3 0 30 0 [⟨0, 0⟩]).nbin + 1)
      = 10 := by
    rw [hnb3]
    norm_num [TH1D.new, TH1D.GetBinLowEdge]
  exact ⟨hA.2.1 (by rw [hedge]), h2.1, h2.2.1, hC.2.1 (by rw [hedge3])⟩

/-- Counterexample to C7 as stated (Scenario 1): a single bin `[0, 100)` and
the stream `(0, 0), (100, 50)`.  The entry at `t = 100` is not above the high
edge 100, so the bin is never closed: its value is 0, not 50, and no error is
set. -/
theorem C7_counterexample :
    (fluenceScan (TH1D.new 1 0 100) 1 0 [⟨0, 0⟩, ⟨100, 50⟩]).h.GetBinContent 1 = 0 ∧
    (fluenceScan (TH1D.new 1 0 100) 1 0 [⟨0, 0⟩, ⟨100, 50⟩]).h.sumw2 1 = ⟨none, 0⟩ ∧
    (fluenceScan (TH1D.new 1 0 100) 1 0 [⟨0, 0⟩, ⟨100, 50⟩]).h.entries = 0 := by
  refine ⟨?_, ?_, ?_⟩ <;>
  norm_num [fluenceScan, fluenceStep, TH1D.Fill, TH1D.SetBinError,
      TH1D.GetBinContent, TH1D.new, TH1D.GetBinLowEdge, TH1D.GetNbinsX, TH1D.FindBin]

/-! ## The TTF fill of a closing entry -/

theorem errorStep_close_hTTF (nbits : Nat) (st : ErrState) (s : CpldSample)
    (hc : s.t > st.th) :
    (errorStep nbits st s).hTTF =
      if (Dbl.div (.fin (st.th - st.tl)) (.fin (sumBits nbits s.bit - st.vl))).gt 10 then
        st.hTTF.Fill
          (Dbl.div (.fin (st.th - st.tl))
            (Dbl.add (.fin (sumBits nbits s.bit - st.vl - sumBits nbits s.bitP)) st.vl2)) 1
      else st.hTTF := by
  unfold errorStep
  rw [if_pos hc]

/-! ## C8: the rate threshold is strict -/

/-- C8 (as amended): every bin the error loop closes with elapsed time
`th - tl = 10 * (E_high - vl)`, as in Scenario 4, emits NO TTF observation:
the guard `(th - tl) / (vh - vl) > 10` is strict and `10 > 10` is false, so the
TTF histogram is left exactly as it was.  Here `vl` is the low value the loop
holds: after a closing entry it is the current-error sum `E` of that entry (so
for every bin after the first `E_high - vl = E_high - E_low`), and for the
first bin it is the sum of BOTH arrays of the first entry of the stream. -/
theorem C8_threshold_strict (nbits : Nat) (st : ErrState) (s : CpldSample)
    (hc : s.t > st.th)
    (h10 : st.th - st.tl = 10 * (sumBits nbits s.bit - st.vl)) :
    (errorStep nbits st s).hTTF = st.hTTF ∧
    (errorStep nbits st s).vl = sumBits nbits s.bit ∧
    (∀ (h hTTF : TH1D) (tmin : ℚ) (v : Dbl) (s0 : CpldSample) (tr : List CpldSample),
      errorScan nbits h hTTF tmin v (s0 :: tr)
        = (s0 :: tr).foldl (errorStep nbits)
            { h := h, hTTF := hTTF, nbin := 1, tl := tmin, th := h.GetBinLowEdge (1 + 1),
              vl := sumBits nbits s0.bit + sumBits nbits s0.bitP, vl2 := v }) := by
  refine ⟨?_, ?_, fun _ _ _ _ _ _ => rfl⟩
  · rw [errorStep_close_hTTF nbits st s hc, h10]
    by_cases hd : sumBits nbits s.bit - st.vl = 0
    · simp [hd, Dbl.div, Dbl.gt]
    · have hq : 10 * (sumBits nbits s.bit - st.vl) / (sumBits nbits s.bit - st.vl) = 10 := by
        field_simp
      simp [hd, Dbl.div, Dbl.gt, hq]
  · unfold errorStep
    rw [if_pos hc]

/-- Witness of C8 (as amended): the first closing entry of Scenario 4,
`t = 15` with error sum 1, met with `tl = 0`, `th = 10`, `vl = 0`. -/
theorem C8_threshold_strict_witness :
    (⟨15, bits32 1, bits32 0⟩ : CpldSample).t > steadyStart.th ∧
    steadyStart.th - steadyStart.tl = 10 * (sumBits 32 (bits32 1) - steadyStart.vl) ∧
    (errorStep 32 steadyStart ⟨15, bits32 1, bits32 0⟩).hTTF = steadyStart.hTTF := by
  have hc : (⟨15, bits32 1, bits32 0⟩ : CpldSample).t > steadyStart.th := by
    norm_num [steadyStart, grid5, TH1D.new, TH1D.GetBinLowEdge]
  have h10 : steadyStart.th - steadyStart.tl
      = 10 * (sumBits 32 (bits32 1) - steadyStart.vl) := by
    norm_num [steadyStart, grid5, TH1D.new, TH1D.GetBinLowEdge, sumBits_bits32]
  exact ⟨hc, h10, (C8_threshold_strict 32 steadyStart ⟨15, bits32 1, bits32 0⟩ hc h10).1⟩

/-- Counterexample to C8 as stated (Scenario 4): entries at `t = 5 + 10 j` with
error sum `j` and previous errors all zero, window starting at 0, bin width 10.  Bins 1 to 4 are closed,
each with error delta 1 over 10 time units, and the TTF histogram receives
nothing: no entry at all, and cell 2 stays 0. -/
theorem C8_counterexample :
    (errorScan 32 grid5 ttfHist 0 (.fin 0) steadyStream).h.GetBinContent 1 = 1 ∧
    (errorScan 32 grid5 ttfHist 0 (.fin 0) steadyStream).h.GetBinContent 2 = 1 ∧
    (errorScan 32 grid5 ttfHist 0 (.fin 0) steadyStream).hTTF.entries = 0 ∧
    (errorScan 32 grid5 ttfHist 0 (.fin 0) steadyStream).hTTF.GetBinContent 2 = 0 := by
  refine ⟨?_, ?_, ?_, ?_⟩ <;>
  norm_num [errorScan, errorStep, steadyStream, grid5, ttfHist, sumBits_bits32, TH1D.Fill,
      TH1D.SetBinError, TH1D.GetBinContent, TH1D.new, TH1D.GetBinLowEdge, TH1D.GetNbinsX,
      TH1D.FindBin, Int.floor_eq_iff, Int.toNat, Dbl.div, Dbl.gt, Dbl.add, Nbin, ttfmin,
      ttfmax]

/-! ## C3: degenerate bins -/

theorem guard_pos (T d : ℚ) (hT : 0 ≤ T)
    (hg : (Dbl.div (.fin T) (.fin d)).gt 10 = true) : 0 < T ∧ 0 ≤ d := by
  by_cases hd : d = 0
  · subst hd
    rcases lt_or_eq_of_le hT with h | h
    · exact ⟨h, le_rfl⟩
    · subst h
      simp [Dbl.div, Dbl.gt] at hg
  · simp only [Dbl.div, hd, if_false, Dbl.gt, decide_eq_true_eq] at hg
    by_contra hcon
    have hquot : T / d ≤ 0 := by
      by_cases hdpos : 0 < d
      · have hT0 : T = 0 := by
          by_contra hne
          exact hcon ⟨lt_of_le_of_ne hT (Ne.symm hne), hdpos.le⟩
        rw [hT0, zero_div]
      · exact div_nonpos_of_nonneg_of_nonpos hT (not_lt.mp hdpos)
    linarith

/-- A closing entry whose rate denominator is negative leaves the TTF histogram
alone. -/
theorem errorStep_neg_guard (nbits : Nat) (st : ErrState) (s : CpldSample)
    (hc : s.t > st.th) (hle : st.tl ≤ st.th) (hd : sumBits nbits s.bit - st.vl < 0) :
    (errorStep nbits st s).hTTF = st.hTTF := by
  have hT : 0 ≤ st.th - st.tl := by linarith
  rw [errorStep_close_hTTF nbits st s hc]
  have hng : ¬ (Dbl.div (.fin (st.th - st.tl)) (.fin (sumBits nbits s.bit - st.vl))).gt 10
      = true := by
    intro hg
    have := (guard_pos _ _ hT hg).2
    linarith
  rw [if_neg hng]

/-- C3 (as amended): for every bin the error loop closes (with `tl ≤ th`):
a rate denominator `vh - vl < 0` adds nothing to the TTF histogram; a rate
denominator `vh - vl = 0` with `tl < th` makes the guard quotient `+inf > 10`
and DOES add one entry; and whenever the guard passes while the TTF
denominator `vh - vl - vh2 + vl2` is zero or negative, one entry is added that
lands in the overflow or underflow cell, so that no cell `1 .. nbins` changes
but the entry count does. -/
theorem C3_degenerate_bins (nbits : Nat) (st : ErrState) (s : CpldSample)
    (hc : s.t > st.th) (hle : st.tl ≤ st.th) :
    (sumBits nbits s.bit - st.vl < 0 → (errorStep nbits st s).hTTF = st.hTTF) ∧
    (sumBits nbits s.bit - st.vl = 0 → st.tl < st.th →
      (errorStep nbits st s).hTTF.entries = st.hTTF.entries + 1) ∧
    (∀ p : ℚ, st.vl2 = .fin p →
      (Dbl.div (.fin (st.th - st.tl)) (.fin (sumBits nbits s.bit - st.vl))).gt 10 = true →
      sumBits nbits s.bit - st.vl - sumBits nbits s.bitP + p ≤ 0 → 0 ≤ st.hTTF.xmin →
      (errorStep nbits st s).hTTF.entries = st.hTTF.entries + 1 ∧
      ∀ j, 1 ≤ j → j ≤ st.hTTF.nbins →
        (errorStep nbits st s).hTTF.content j = st.hTTF.content j) := by
  have hT : 0 ≤ st.th - st.tl := by linarith
  refine ⟨?_, ?_, ?_⟩
  · intro hd
    exact errorStep_neg_guard nbits st s hc hle hd
  · intro hd hlt
    rw [errorStep_close_hTTF nbits st s hc, hd]
    have hpos : 0 < st.th - st.tl := by linarith
    have hg : (Dbl.div (.fin (st.th - st.tl)) (.fin 0)).gt 10 = true := by
      simp [Dbl.div, Dbl.gt, hpos]
    rw [if_pos hg, Fill_entries]
  · intro p hp hg hD hx
    have hpos : 0 < st.th - st.tl := (guard_pos _ _ hT hg).1
    rw [errorStep_close_hTTF nbits st s hc, if_pos hg, hp]
    refine ⟨Fill_entries _ _ _, ?_⟩
    intro j hj1 hjN
    rw [Fill_content]
    have hadd : Dbl.add (.fin (sumBits nbits s.bit - st.vl - sumBits nbits s.bitP)) (.fin p)
        = .fin (sumBits nbits s.bit - st.vl - sumBits nbits s.bitP + p) := rfl
    rw [hadd]
    rcases lt_or_eq_of_le hD with hneg | hzero
    · have hne : sumBits nbits s.bit - st.vl - sumBits nbits s.bitP + p ≠ 0 := ne_of_lt hneg
      have hval : (st.th - st.tl) / (sumBits nbits s.bit - st.vl - sumBits nbits s.bitP + p)
          < 0 := div_neg_of_pos_of_neg hpos hneg
      have hbin : st.hTTF.FindBin (Dbl.div (.fin (st.th - st.tl))
          (.fin (sumBits nbits s.bit - st.vl - sumBits nbits s.bitP + p))) = 0 := by
        simp only [Dbl.div, hne, if_false, TH1D.FindBin]
        rw [if_pos (by linarith)]
      rw [hbin, if_neg (by omega)]
    · have hbin : st.hTTF.FindBin (Dbl.div (.fin (st.th - st.tl))
          (.fin (sumBits nbits s.bit - st.vl - sumBits nbits s.bitP + p)))
          = st.hTTF.nbins + 1 := by
        rw [hzero]
        simp only [Dbl.div, if_true, hpos, TH1D.FindBin]
      rw [hbin, if_neg (by omega)]

/-- Witness of C3 (as amended): the closing entry of Scenario 2 (`t = 50`,
`bit` sum 5) met with `tl = 0`, `th = 40`, `vl = 5`: the rate denominator is 0
and one entry is added. -/
theorem C3_degenerate_bins_witness :
    (⟨50, bits32 5, bits32 0⟩ : CpldSample).t > scenario2Start.th ∧
    scenario2Start.tl ≤ scenario2Start.th ∧
    (errorStep 32 scenario2Start ⟨50, bits32 5, bits32 0⟩).hTTF.entries
      = scenario2Start.hTTF.entries + 1 := by
  have hc : (⟨50, bits32 5, bits32 0⟩ : CpldSample).t > scenario2Start.th := by
    norm_num [scenario2Start, grid2, TH1D.new, TH1D.GetBinLowEdge]
  have hle : scenario2Start.tl ≤ scenario2Start.th := by
    norm_num [scenario2Start, grid2, TH1D.new, TH1D.GetBinLowEdge]
  have hlt : scenario2Start.tl < scenario2Start.th := by
    norm_num [scenario2Start, grid2, TH1D.new, TH1D.GetBinLowEdge]
  have hd : sumBits 32 (bits32 5) - scenario2Start.vl = 0 := by
    norm_num [scenario2Start, sumBits_bits32]
  exact ⟨hc, hle,
    (C3_degenerate_bins 32 scenario2Start ⟨50, bits32 5, bits32 0⟩ hc hle).2.1 hd hlt⟩

/-- Counterexample to C3 as stated (Scenario 2): `bit = [5, 0, ...]` at `t = 0`
and at `t = 50`, previous errors zero, two bins over `[0, 80]`.  The closing
entry has rate denominator `5 - 5 = 0` and `(40 - 0) / 0 = +inf > 10`, so the
TTF histogram is filled: whatever `vl2` holds, its entry count becomes 1, and
with `vl2 = 0` the entry `40 / 0 = +inf` lands in the overflow cell 101. -/
theorem C3_counterexample :
    (∀ v : Dbl, (errorScan 32 grid2 ttfHist 0 v scenario2Stream).hTTF.entries = 1) ∧
    (errorScan 32 grid2 ttfHist 0 (.fin 0) scenario2Stream).hTTF.content 101 = 1 := by
  constructor
  · intro v
    norm_num [errorScan, errorStep, scenario2Stream, grid2, ttfHist, sumBits_bits32,
      TH1D.Fill, TH1D.SetBinError, TH1D.new, TH1D.GetBinLowEdge, TH1D.GetNbinsX,
      Dbl.div, Dbl.gt]
  · norm_num [errorScan, errorStep, scenario2Stream, grid2, ttfHist, sumBits_bits32,
      TH1D.Fill, TH1D.SetBinError, TH1D.new, TH1D.GetBinLowEdge, TH1D.GetNbinsX,
      TH1D.FindBin, Dbl.div, Dbl.gt, Dbl.add, Nbin, ttfmin, ttfmax]

/-! ## C2: the first closed bin of the error loop -/

theorem errorStep_skip (nbits : Nat) (st : ErrState) (s : CpldSample) (hc : ¬ s.t > st.th) :
    errorStep nbits st s = st := by
  unfold errorStep
  rw [if_neg hc]

/-- The error histogram does not depend on what `vl2` held before the loop. -/
theorem errorScan_h_indep (nbits : Nat) (h hTTF : TH1D) (tmin : ℚ) (v w : Dbl)
    (tr : List CpldSample) :
    (errorScan nbits h hTTF tmin v tr).h = (errorScan nbits h hTTF tmin w tr).h := by
  have e1 := congrArg ScanState.h (error_foldl nbits tr
    { h := h, hTTF := hTTF, nbin := 1, tl := tmin, th := h.GetBinLowEdge (1 + 1),
      vl := (tr.head?.map (fun s => sumBits nbits s.bit + sumBits nbits s.bitP)).getD 0,
      vl2 := v })
  have e2 := congrArg ScanState.h (error_foldl nbits tr
    { h := h, hTTF := hTTF, nbin := 1, tl := tmin, th := h.GetBinLowEdge (1 + 1),
      vl := (tr.head?.map (fun s => sumBits nbits s.bit + sumBits nbits s.bitP)).getD 0,
      vl2 := w })
  exact e1.trans e2.symm

theorem get_reliability_hr2 (v : Dbl) (b2 : List BeamSample) (c2 : List CpldSample)
    (b3 : List BeamSample) (c3 : List CpldSample) :
    (get_reliability v b2 c2 b3 c3).hr2
      = (errorScan nbitsr2 (TH1D.new Nbin tr2min tr2max)
          (TH1D.new (Nbin / 10) ttfmin ttfmax) tr2min v c2).h := rfl

theorem get_reliability_hr2TTF (v : Dbl) (b2 : List BeamSample) (c2 : List CpldSample)
    (b3 : List BeamSample) (c3 : List CpldSample) :
    (get_reliability v b2 c2 b3 c3).hr2TTF
      = (errorScan nbitsr2 (TH1D.new Nbin tr2min tr2max)
          (TH1D.new (Nbin / 10) ttfmin ttfmax) tr2min v c2).hTTF := rfl

theorem errorScan_two (nbits : Nat) (h hTTF : TH1D) (tmin : ℚ) (v : Dbl) (s0 s1 : CpldSample) :
    errorScan nbits h hTTF tmin v [s0, s1]
      = errorStep nbits (errorStep nbits
          { h := h, hTTF := hTTF, nbin := 1, tl := tmin, th := h.GetBinLowEdge (1 + 1),
            vl := sumBits nbits s0.bit + sumBits nbits s0.bitP, vl2 := v } s0) s1 := rfl

theorem run2_edge2 : (TH1D.new Nbin tr2min tr2max).GetBinLowEdge (1 + 1) = tr2min + 700 := by
  norm_num [TH1D.new, TH1D.GetBinLowEdge, Nbin, tr2min, tr2max]

/-- An entry on the window start followed by an entry 1000 s later with
current-error sum 1, met with `vl = 5`: no TTF fill. -/
theorem two_entries_no_ttf (st : ErrState) (p0 p1 : List ℤ) (h1 : st.tl = tr2min)
    (h2 : st.th = tr2min + 700) (h3 : st.vl = 5) (h4 : st.hTTF.entries = 0) :
    (errorStep nbitsr2 (errorStep nbitsr2 st ⟨tr2min, bits32 0, p0⟩)
      ⟨tr2min + 1000, bits32 1, p1⟩).hTTF.entries = 0 := by
  rw [errorStep_skip _ st _ (by rw [h2]; norm_num),
    errorStep_neg_guard _ st _ (by rw [h2]; norm_num) (by rw [h1, h2]; norm_num)
      (by rw [h3]; norm_num [nbitsr2, sumBits_bits32])]
  exact h4

theorem cpld2First_hr2 :
    (get_reliability (.fin 0) beam2One cpld2First beam3Two cpld3Plain).hr2.GetBinContent 1
      = -4 := by
  norm_num [get_reliability, errorScan, errorStep, cpld2First, sumBits_bits32,
    TH1D.Fill, TH1D.SetBinError, TH1D.GetBinContent, TH1D.new, TH1D.GetBinLowEdge,
    TH1D.GetNbinsX, TH1D.FindBin, Int.floor_eq_iff, Int.toNat, Dbl.div, Dbl.gt, Dbl.add,
    Nbin, ttfmin, ttfmax, tr2min, tr2max, nbitsr2]

theorem cpld2Plain_ttf :
    (get_reliability (.fin 0) beam2One cpld2Plain beam3Two cpld3Plain).hr2TTF.GetBinContent 71
      = 1 ∧
    (get_reliability (.fin 6) beam2One cpld2Plain beam3Two cpld3Plain).hr2TTF.GetBinContent 71
      = 0 ∧
    (get_reliability (.fin 6) beam2One cpld2Plain beam3Two cpld3Plain).hr2TTF.GetBinContent 11
      = 1 := by
  refine ⟨?_, ?_, ?_⟩ <;>
  norm_num [get_reliability, errorScan, errorStep, cpld2Plain, sumBits_bits32,
    TH1D.Fill, TH1D.SetBinError, TH1D.GetBinContent, TH1D.new, TH1D.GetBinLowEdge,
    TH1D.GetNbinsX, TH1D.FindBin, Int.floor_eq_iff, Int.toNat, Dbl.div, Dbl.gt, Dbl.add,
    Nbin, ttfmin, ttfmax, tr2min, tr2max, nbitsr2]

/-- C2, the script at a failing input.  Run 2 error tree: first entry with
current-error sum 0 and previous-error sum 5, second entry 1000 s later with
sums 1 and 5.  Bin 1 (700 s wide) is closed with `E_high - E_low = 1`, so the
stated guard `700 / 1 > 10` holds and the stated TTF is
`700 / (1 - 0 - 5 + 5) = 700`; the script started `vl` at `0 + 5`, sees
`vh - vl = -4` and emits nothing, whatever `vl2` holds.  With no previous
errors at all the emitted value is `700 / (1 + vl2)`: cell 71 when `vl2`
happens to hold 0, cell 11 when it happens to hold 6. -/
theorem C2_first_bin (v : Dbl) :
    (get_reliability v beam2One cpld2First beam3Two cpld3Plain).hr2.GetBinContent 1 = -4 ∧
    (get_reliability v beam2One cpld2First beam3Two cpld3Plain).hr2TTF.entries = 0 ∧
    (get_reliability (.fin 0) beam2One cpld2Plain beam3Two cpld3Plain).hr2TTF.GetBinContent 71
      = 1 ∧
    (get_reliability (.fin 6) beam2One cpld2Plain beam3Two cpld3Plain).hr2TTF.GetBinContent 71
      = 0 ∧
    (get_reliability (.fin 6) beam2One cpld2Plain beam3Two cpld3Plain).hr2TTF.GetBinContent 11
      = 1 := by
  refine ⟨?_, ?_, cpld2Plain_ttf⟩
  · rw [get_reliability_hr2, errorScan_h_indep _ _ _ _ v (.fin 0),
      ← get_reliability_hr2 (.fin 0) beam2One cpld2First beam3Two cpld3Plain]
    exact cpld2First_hr2
  · rw [get_reliability_hr2TTF,
      show cpld2First = [⟨tr2min, bits32 0, bits32 5⟩, ⟨tr2min + 1000, bits32 1, bits32 5⟩]
        from rfl,
      errorScan_two]
    exact two_entries_no_ttf _ (bits32 5) (bits32 5) rfl run2_edge2
      (by norm_num [nbitsr2, sumBits_bits32]) rfl

/-! ## C6: state carried from run 2 into run 3 -/

/-- C6, the script at a failing input: executions that differ only in the
run 2 error tree.  When that tree closes no bin, run 3's fluence bin 1 holds 7;
when it closes one bin, `nbin` enters the run 3 fluence loop as 2, the loop
waits for the edge of bin 2 and bin 1 stays 0.  When the run 2 closing entry
has previous-error sum 0, the first run 3 TTF value is `700 / 1` (cell 71);
when it has previous-error sum 6, it is `700 / 7` (cell 11). -/
theorem C6_run3_depends_on_run2 :
    (get_reliability (.fin 0) beam2One cpld2Single beam3Two cpld3Plain).hr3Bfluence.GetBinContent 1
      = 7 ∧
    (get_reliability (.fin 0) beam2One cpld2Plain beam3Two cpld3Plain).hr3Bfluence.GetBinContent 1
      = 0 ∧
    (get_reliability (.fin 0) beam2One cpld2Plain beam3Two cpld3Plain).hr3TTF.GetBinContent 71
      = 1 ∧
    (get_reliability (.fin 0) beam2One cpld2Prev beam3Two cpld3Plain).hr3TTF.GetBinContent 71
      = 0 ∧
    (get_reliability (.fin 0) beam2One cpld2Prev beam3Two cpld3Plain).hr3TTF.GetBinContent 11
      = 1 := by
  refine ⟨?_, ?_, ?_, ?_, ?_⟩ <;>
  norm_num [get_reliability, errorScan, errorStep, fluenceScan, fluenceStep, cpld2Single,
      cpld2Plain, cpld2Prev, beam3Two, cpld3Plain, sumBits_bits32, sumBits_bits16,
      TH1D.Fill, TH1D.SetBinError, TH1D.GetBinContent, TH1D.new, TH1D.GetBinLowEdge,
      TH1D.GetNbinsX, TH1D.FindBin, Int.floor_eq_iff, Int.toNat, Dbl.div, Dbl.gt, Dbl.add,
      Nbin, ttfmin, ttfmax, tr2min, tr2max, tr3min, tr3max, nbitsr2, nbitsr3]

/-! ## C10: the last bin at the end of the stream -/

/-- C10, the scans at a failing input: two bins over `[0, 20]` and streams
that end at `t = 12`, inside bin 2 and before the window end.  No timestamp
exceeds the high edge 20 of bin 2, yet bin 2 is filled, with the delta of the
entry at `t = 12` that lies inside it: after bin 1 is closed `th` stays on the
low edge 10 of bin 2. -/
theorem C10_last_bin_filled :
    (∀ s ∈ shortStream, s.t ≤ 20) ∧
    (fluenceScan (TH1D.new 2 0 20) 1 0 shortStream).h.GetBinContent 2 = 2 ∧
    (fluenceScan (TH1D.new 2 0 20) 1 0 shortStream).th = 10 ∧
    (errorScan 32 (TH1D.new 2 0 20) ttfHist 0 (.fin 0) shortErrStream).h.GetBinContent 2 = 2 := by
  refine ⟨?_, ?_, ?_, ?_⟩
  · norm_num [shortStream]
  · norm_num [fluenceScan, fluenceStep, shortStream, TH1D.Fill, TH1D.SetBinError,
      TH1D.GetBinContent, TH1D.new, TH1D.GetBinLowEdge, TH1D.GetNbinsX, TH1D.FindBin,
      Int.floor_eq_iff, Int.toNat]
  · norm_num [fluenceScan, fluenceStep, shortStream, TH1D.Fill, TH1D.SetBinError,
      TH1D.new, TH1D.GetBinLowEdge, TH1D.GetNbinsX]
  · norm_num [errorScan, errorStep, shortErrStream, ttfHist, sumBits_bits32, TH1D.Fill,
      TH1D.SetBinError, TH1D.GetBinContent, TH1D.new, TH1D.GetBinLowEdge, TH1D.GetNbinsX,
      TH1D.FindBin, Int.floor_eq_iff, Int.toNat, Dbl.div, Dbl.gt, Dbl.add, Nbin, ttfmin,
      ttfmax]

end GetReliability
